import Mathlib

/-!
Verification development for the FlowCurveClustering PCA/k-means/AHC core
(`src/src/KMeans/PCA_Cluster.cpp`).  The C++ routines are shallowly embedded:
floating-point scalars become exact rationals (reals where a logarithm is
required), Eigen matrices become lists of rows, and the few stateful loops
become structural recursions with explicit fuel.  Each definition mirrors one
function or loop of the source file and is documented with the lines it embeds.
-/

namespace FlowCurve

/-! ### Dimensionality reducer: principal-component selection
`PCA_Cluster::performSVD`, lines 128-150.  After the decomposition the code
sums per-direction squared norms `tempSum += coefficient.col(i).squaredNorm()`
and executes `if (tempSum > threshold) { PC_Number = i; break; }` with
`threshold = TOR_1 * varianceSummation` and `TOR_1 = 0.999`.  The loop is
embedded as `pcSelectAux`; `none` models the case in which the `break` never
fires and `PC_Number` keeps its previous (uninitialized) value. -/

/-- The selection loop of `performSVD` (lines 135-143): walking the
per-direction energies in order, accumulate them and return the loop index `i`
at which the running sum first strictly exceeds the threshold. -/
def pcSelectAux (threshold : ℚ) : ℚ → List ℚ → ℕ → Option ℕ
  | _, [], _ => none
  | acc, e :: es, i =>
    if threshold < acc + e then some i else pcSelectAux threshold (acc + e) es (i + 1)

/-- `PC_Number` as assigned by `performSVD`: the first 0-based index at which
the cumulative energy exceeds `0.999 *` the total energy (lines 131-143). -/
def pcSelect (energies : List ℚ) : Option ℕ :=
  pcSelectAux (999/1000 * energies.sum) 0 energies 0

/-- Cumulative squared-coefficient energy of the first `k` variance-ranked
directions. -/
def cumEnergy (energies : List ℚ) (k : ℕ) : ℚ :=
  ((energies.take k).sum)

/-- Column `j` of a row-major rational matrix, entries read with `getD`. -/
def colQ (M : List (List ℚ)) (j : ℕ) : List ℚ :=
  M.map (fun r => r.getD j 0)

/-- Column mean, `performSVD` lines 105-109. -/
def colMeanQ (M : List (List ℚ)) (j : ℕ) : ℚ :=
  (colQ M j).sum / M.length

/-- Mean-centering of the data matrix, `performSVD` lines 110-114
(`temp.row(i) = temp.row(i) - meanTrajectory.transpose()`). -/
def centerRows (M : List (List ℚ)) (Col : ℕ) : List (List ℚ) :=
  M.map (fun r => (List.range Col).map (fun j => r.getD j 0 - colMeanQ M j))

/-- Entry `(i, j)` of the coefficient matrix `temp * SingVec`
(`performSVD` line 129). -/
def coeffEntry (T V : List (List ℚ)) (i j : ℕ) : ℚ :=
  ((List.range (T.getD i []).length).map
    (fun k => (T.getD i []).getD k 0 * (V.getD k []).getD j 0)).sum

/-- Squared norm of coefficient column `j`
(`coefficient.transpose().row(i).squaredNorm()`, line 137). -/
def colEnergyQ (T V : List (List ℚ)) (Row j : ℕ) : ℚ :=
  ((List.range Row).map (fun i => (coeffEntry T V i j) ^ 2)).sum

/-- The per-direction energies scanned by the selection loop of `performSVD`,
for data matrix `data` and right-singular-vector matrix `V`. -/
def svdEnergies (data V : List (List ℚ)) (Col : ℕ) : List ℚ :=
  (List.range Col).map (fun j => colEnergyQ (centerRows data Col) V data.length j)

/-- The `PC_Number` produced by `performSVD` on `data` with
decomposition basis `V` (`none` = the assignment never happened). -/
def pcNumberOf (data V : List (List ℚ)) (Col : ℕ) : Option ℕ :=
  pcSelect (svdEnergies data V Col)

/-- Claim C2: on the already-centered data matrix `[[3, 1/2], [-3, -1/2]]`
(identity basis) the per-direction energies are `[18, 1/2]` — total `18.5`,
threshold `0.999 * 18.5 = 18.4815`.  The code assigns `PC_Number = 1`, yet
the cumulative energy of the first `PC_Number = 1` directions is `18`, which
does NOT exceed the threshold (the crossing prefix has length
`PC_Number + 1 = 2`): the selection is off by one with respect to the claimed
boundary-exactness. -/
theorem pcSelect_boundary_violated :
    svdEnergies [[3, 1/2], [-3, -1/2]] [[1, 0], [0, 1]] 2 = [18, 1/2] ∧
    pcNumberOf [[3, 1/2], [-3, -1/2]] [[1, 0], [0, 1]] 2 = some 1 ∧
    ¬ (999/1000 * cumEnergy [18, 1/2] 2 < cumEnergy [18, 1/2] 1) ∧
    999/1000 * cumEnergy [18, 1/2] 2 < cumEnergy [18, 1/2] 2 := by
  have he : svdEnergies [[3, 1/2], [-3, -1/2]] [[1, 0], [0, 1]] 2 = [18, 1/2] := by
    norm_num [svdEnergies, colEnergyQ, coeffEntry, centerRows, colMeanQ, colQ,
      List.range_succ, List.getD]
  refine ⟨he, ?_, by norm_num [cumEnergy], by norm_num [cumEnergy]⟩
  rw [pcNumberOf, he]
  norm_num [pcSelect, pcSelectAux]

/-- Sum of a constant list. -/
theorem list_sum_of_const {l : List ℚ} {c : ℚ} (h : ∀ x ∈ l, x = c) :
    l.sum = l.length * c := by
  induction l with
  | nil => simp
  | cons a t ih =>
      have ha : a = c := h a (List.mem_cons_self a t)
      have ht : ∀ x ∈ t, x = c := fun x hx => h x (List.mem_cons_of_mem a hx)
      simp only [List.sum_cons, List.length_cons, ha, ih ht]
      push_cast
      ring

/-- If every scanned energy is zero the selection loop of `performSVD` never
fires: `0 > 0` is false at every step. -/
theorem pcSelectAux_zero {es : List ℚ} (h : ∀ e ∈ es, e = 0) :
    ∀ i, pcSelectAux 0 0 es i = none := by
  induction es with
  | nil => intro i; rfl
  | cons e t ih =>
      intro i
      have he : e = 0 := h e (List.mem_cons_self e t)
      have ht : ∀ x ∈ t, x = 0 := fun x hx => h x (List.mem_cons_of_mem e hx)
      simp [pcSelectAux, he, ih ht]

/-- All energies of an all-equal dataset vanish: the centered matrix is zero. -/
theorem svdEnergies_zero_of_const {data : List (List ℚ)} {r₀ : List ℚ}
    (hconst : ∀ r ∈ data, r = r₀) (V : List (List ℚ)) (Col : ℕ) :
    ∀ e ∈ svdEnergies data V Col, e = 0 := by
  intro e he
  simp only [svdEnergies, List.mem_map, List.mem_range] at he
  obtain ⟨j, hj, rfl⟩ := he
  have hT : ∀ i < data.length, (centerRows data Col).getD i [] =
      (List.range Col).map (fun _ => (0 : ℚ)) := by
    intro i hi
    have hmem : data.getD i [] ∈ data := by
      rw [List.getD_eq_getElem data [] hi]
      exact List.getElem_mem hi
    have hrow : data.getD i [] = r₀ := hconst _ hmem
    have hmean : ∀ k, colMeanQ data k = r₀.getD k 0 := by
      intro k
      have hcol : ∀ x ∈ colQ data k, x = r₀.getD k 0 := by
        intro x hx
        simp only [colQ, List.mem_map] at hx
        obtain ⟨r, hr, rfl⟩ := hx
        rw [hconst r hr]
      have hlen : (colQ data k).length = data.length := by simp [colQ]
      have hne : data.length ≠ 0 := by
        intro h0; rw [h0] at hi; exact Nat.not_lt_zero i hi
      rw [colMeanQ, list_sum_of_const hcol, hlen, mul_div_cancel_left₀]
      exact_mod_cast hne
    have : (centerRows data Col).getD i [] =
        (List.range Col).map (fun j => (data.getD i []).getD j 0 - colMeanQ data j) := by
      have hlt : i < (centerRows data Col).length := by simpa [centerRows] using hi
      rw [centerRows] at hlt ⊢
      rw [List.getD_eq_getElem _ _ hlt, List.getElem_map]
      congr 1
      rw [List.getD_eq_getElem _ _ hi]
    rw [this]
    apply List.map_congr_left
    intro k _
    rw [hrow, hmean]
    ring
  have hcoeff : ∀ i < data.length, coeffEntry (centerRows data Col) V i j = 0 := by
    intro i hi
    rw [coeffEntry, hT i hi]
    have : ∀ x ∈ (List.range (((List.range Col).map (fun _ => (0:ℚ))).length)).map
        (fun k => (((List.range Col).map (fun _ => (0:ℚ))).getD k 0) * ((V.getD k []).getD j 0)),
        x = 0 := by
      intro x hx
      simp only [List.mem_map, List.mem_range] at hx
      obtain ⟨k, hk, rfl⟩ := hx
      simp only [List.length_map, List.length_range] at hk
      have : ((List.range Col).map (fun _ => (0:ℚ))).getD k 0 = 0 := by
        rw [List.getD_eq_getElem]
        · simp
        · simpa using hk
      rw [this, zero_mul]
    rw [list_sum_of_const this]; ring
  rw [colEnergyQ]
  have : ∀ x ∈ (List.range data.length).map
      (fun i => (coeffEntry (centerRows data Col) V i j) ^ 2), x = 0 := by
    intro x hx
    simp only [List.mem_map, List.mem_range] at hx
    obtain ⟨i, hi, rfl⟩ := hx
    rw [hcoeff i hi]; ring
  rw [list_sum_of_const this]; ring

/-- Claim C7 (amended): on a degenerate dataset whose rows are all equal, the
cumulative-energy test `tempSum > threshold` of `performSVD` is `0 > 0` at
every step, so the `break` never fires and `PC_Number` is never assigned
(modelled as `none`) regardless of the decomposition basis; no error is
raised. -/
theorem pcNumber_const_data_unassigned {data : List (List ℚ)} {r₀ : List ℚ}
    (hconst : ∀ r ∈ data, r = r₀) (V : List (List ℚ)) (Col : ℕ) :
    pcNumberOf data V Col = none := by
  have hz := svdEnergies_zero_of_const hconst V Col
  have hsum : (svdEnergies data V Col).sum = 0 := by
    rw [list_sum_of_const hz]; ring
  rw [pcNumberOf, pcSelect, hsum]
  have : (999/1000 : ℚ) * 0 = 0 := by ring
  rw [this]
  exact pcSelectAux_zero hz 0

/-- Claim C7 counterexample: on the all-equal dataset `[[1,2],[1,2]]` (with the
identity basis) `performSVD` does not set `PC_Number` to `0` or to `1` — the
assignment never executes at all. -/
theorem pcNumber_const_data_not_zero_or_one :
    pcNumberOf [[1,2],[1,2]] [[1,0],[0,1]] 2 ≠ some 0 ∧
    pcNumberOf [[1,2],[1,2]] [[1,0],[0,1]] 2 ≠ some 1 := by
  have hconst : ∀ r ∈ [[(1:ℚ),2],[1,2]], r = [1,2] := by decide
  have hz := svdEnergies_zero_of_const hconst [[1,0],[0,1]] 2
  have hsum : (svdEnergies [[(1:ℚ),2],[1,2]] [[1,0],[0,1]] 2).sum = 0 := by
    rw [list_sum_of_const hz]; ring
  have hnone : pcNumberOf [[1,2],[1,2]] [[1,0],[0,1]] 2 = none := by
    rw [pcNumberOf, pcSelect, hsum, show (999/1000 : ℚ) * 0 = 0 by ring]
    exact pcSelectAux_zero hz 0
  rw [hnone]
  exact ⟨fun h => Option.noConfusion h, fun h => Option.noConfusion h⟩

/-- Claim C7 witness: the amended statement applied to the concrete all-equal
dataset `[[1,2],[1,2]]`. -/
theorem pcNumber_const_data_unassigned_witness :
    pcNumberOf [[1,2],[1,2]] [[1,0],[0,1]] 2 = none :=
  pcNumber_const_data_unassigned
    (by decide : ∀ r ∈ [[(1:ℚ), 2], [1, 2]], r = [1, 2]) [[1, 0], [0, 1]] 2

/-! ### K-means engines: iteration/stopping rule
`performPC_KMeans` (lines 228-284) and `performFullK_MeansByClusters`
(lines 583-640) run the identical do-while
`do { ... ++tag ... } while (abs(moving-before)/before >= 1.0e-2 && tag < 20
&& moving > 0.01);` with `moving` initialized to `1000`.  The body's effect on
`moving` is abstracted as a sequence `next : ℕ → ℚ` giving the maximum centroid
displacement produced by iteration `t ≥ 1` (the body is deterministic, so the
displacement of each iteration is a fixed value); the loop itself is embedded
verbatim. -/

/-- The `moving` value observed after `t` completed iterations
(`moving = 1000` before the first one, line 213/571). -/
def kmMovingAt (next : ℕ → ℚ) : ℕ → ℚ
  | 0 => 1000
  | t + 1 => next (t + 1)

/-- Continuation condition of the do-while, evaluated after iteration `t`
(lines 284 and 640): `abs(moving-before)/before >= 1.0e-2 && tag < 20 &&
moving > 0.01`, with `before` the previous iteration's `moving` and `tag = t`. -/
def kmCont (next : ℕ → ℚ) (t : ℕ) : Prop :=
  1/100 ≤ |kmMovingAt next t - kmMovingAt next (t - 1)| / kmMovingAt next (t - 1) ∧
  t < 20 ∧ 1/100 < kmMovingAt next t

instance kmContDecidable (next : ℕ → ℚ) (t : ℕ) : Decidable (kmCont next t) := by
  unfold kmCont; infer_instance

/-- The do-while loop of both k-means engines: starting with `tag` completed
iterations, run one more body, then repeat while `kmCont` holds.  Returns the
final `moving` and the final iteration count.  `fuel` bounds the recursion; 20
units are always sufficient because `kmCont` forces `t < 20`. -/
def kmLoop (next : ℕ → ℚ) : ℕ → ℕ → ℚ × ℕ
  | tag, 0 => (kmMovingAt next tag, tag)
  | tag, fuel + 1 =>
    if kmCont next (tag + 1) then kmLoop next (tag + 1) fuel
    else (kmMovingAt next (tag + 1), tag + 1)

/-- A full k-means run: the do-while entered with `tag = 0`, `moving = 1000`. -/
def kmRun (next : ℕ → ℚ) : ℚ × ℕ :=
  kmLoop next 0 20

theorem kmLoop_spec (next : ℕ → ℚ) :
    ∀ fuel tag, tag + fuel = 20 → (∀ t, 1 ≤ t → t ≤ tag → kmCont next t) →
      tag < (kmLoop next tag fuel).2 ∧ (kmLoop next tag fuel).2 ≤ 20 ∧
      ¬ kmCont next (kmLoop next tag fuel).2 ∧
      (∀ t, 1 ≤ t → t < (kmLoop next tag fuel).2 → kmCont next t) ∧
      (kmLoop next tag fuel).1 = kmMovingAt next (kmLoop next tag fuel).2 := by
  intro fuel
  induction fuel with
  | zero =>
      intro tag htag hist
      exfalso
      have h20 : tag = 20 := by omega
      have := hist 20 (by omega) (by omega)
      exact absurd this.2.1 (by omega)
  | succ f ih =>
      intro tag htag hist
      by_cases hc : kmCont next (tag + 1)
      · have hrec := ih (tag + 1) (by omega) (by
          intro t ht1 ht2
          rcases Nat.lt_or_ge t (tag + 1) with h | h
          · exact hist t ht1 (by omega)
          · have : t = tag + 1 := by omega
            rw [this]; exact hc)
        simp only [kmLoop, if_pos hc]
        exact ⟨by omega, hrec.2⟩
      · simp only [kmLoop, if_neg hc]
        refine ⟨by omega, by omega, hc, ?_, by trivial⟩
        intro t ht1 ht2
        exact hist t ht1 (by omega)

/-- Claim C3: for every displacement sequence (hence for both engines on any
finite input) the k-means do-while executes at least one and at most 20
iterations; at the exit iteration `T` one of the three stated triggers holds —
relative displacement change below `0.01`, the count reaching 20, or the
displacement itself at most `0.01` — and at every earlier iteration none of the
triggers held (the loop exits exactly at the first trigger). -/
theorem kmeans_terminates_at_first_trigger (next : ℕ → ℚ) :
    1 ≤ (kmRun next).2 ∧ (kmRun next).2 ≤ 20 ∧
    (|kmMovingAt next (kmRun next).2 - kmMovingAt next ((kmRun next).2 - 1)| /
        kmMovingAt next ((kmRun next).2 - 1) < 1/100 ∨
      20 ≤ (kmRun next).2 ∨ kmMovingAt next (kmRun next).2 ≤ 1/100) ∧
    (∀ t, 1 ≤ t → t < (kmRun next).2 →
      (1/100 ≤ |kmMovingAt next t - kmMovingAt next (t - 1)| / kmMovingAt next (t - 1) ∧
        t < 20 ∧ 1/100 < kmMovingAt next t)) ∧
    (kmRun next).1 = kmMovingAt next (kmRun next).2 := by
  have h := kmLoop_spec next 20 0 rfl (by intro t ht1 ht2; omega)
  refine ⟨h.1, h.2.1, ?_, fun t ht1 ht2 => h.2.2.2.1 t ht1 ht2, h.2.2.2.2⟩
  have hnc := h.2.2.1
  rw [kmCont] at hnc
  push_neg at hnc
  by_cases h1 : 1/100 ≤ |kmMovingAt next (kmRun next).2 - kmMovingAt next ((kmRun next).2 - 1)| /
      kmMovingAt next ((kmRun next).2 - 1)
  · by_cases h2 : (kmRun next).2 < 20
    · exact Or.inr (Or.inr (hnc h1 h2))
    · exact Or.inr (Or.inl (by omega))
  · exact Or.inl (lt_of_not_ge h1)

/-- Displacement sequence used to witness the loop theorem: a single large
drop to `1/200`, which is below the `0.01` displacement floor. -/
def dropSeq (t : ℕ) : ℚ :=
  1000 / 200 ^ t

/-- Claim C3 witness: the loop theorem instantiated at the concrete
displacement sequence `dropSeq`. -/
theorem kmeans_terminates_at_first_trigger_witness :
    1 ≤ (kmRun dropSeq).2 ∧ (kmRun dropSeq).2 ≤ 20 ∧
    (|kmMovingAt dropSeq (kmRun dropSeq).2 - kmMovingAt dropSeq ((kmRun dropSeq).2 - 1)| /
        kmMovingAt dropSeq ((kmRun dropSeq).2 - 1) < 1/100 ∨
      20 ≤ (kmRun dropSeq).2 ∨ kmMovingAt dropSeq (kmRun dropSeq).2 ≤ 1/100) ∧
    (∀ t, 1 ≤ t → t < (kmRun dropSeq).2 →
      (1/100 ≤ |kmMovingAt dropSeq t - kmMovingAt dropSeq (t - 1)| /
          kmMovingAt dropSeq (t - 1) ∧
        t < 20 ∧ 1/100 < kmMovingAt dropSeq t)) ∧
    (kmRun dropSeq).1 = kmMovingAt dropSeq (kmRun dropSeq).2 :=
  kmeans_terminates_at_first_trigger dropSeq

/-! ### Hierarchical merger
`PCA_Cluster::setValue` (lines 1187-1204), `PCA_Cluster::getDistAtNodes`
(lines 1156-1177) and `PCA_Cluster::hierarchicalMerging` (lines 1027-1145).
Node maps become association lists `(index, element)`; the `unordered_map`'s
unspecified iteration order is abstracted by parametrizing over the list of
surviving nodes where invariants do not depend on the order. -/

/-- A candidate pair: two node indices and their stored linkage distance
(`struct DistNode`). -/
structure DistNode where
  first : ℕ
  second : ℕ
  distance : ℚ
deriving DecidableEq

/-- `PCA_Cluster::getDistAtNodes`, lines 1156-1177, exactly as written: the
double loop accumulates `reduced_dist_matrix(i, j)` over the LOOP INDICES
`i < firstList.size()`, `j < secondList.size()` and divides by `m * n`. -/
def getDistAtNodes (firstList secondList : List ℕ) (distM : ℕ → ℕ → ℚ) : ℚ :=
  (((List.range firstList.length).map (fun i =>
      ((List.range secondList.length).map (fun j => distM i j)).sum)).sum) /
    (firstList.length * secondList.length)

/-- The average linkage the specification describes: the arithmetic mean of
`distM a b` over the members `a` of the first list and `b` of the second. -/
def meanLinkage (A B : List ℕ) (distM : ℕ → ℕ → ℚ) : ℚ :=
  ((A.map (fun a => (B.map (fun b => distM a b)).sum)).sum) / (A.length * B.length)

/-- `PCA_Cluster::setValue`, lines 1187-1204: one `DistNode` per ordered pair
`i < j` of initial singleton nodes, distances read from the matrix. -/
def setValue (Row : ℕ) (distM : ℕ → ℕ → ℚ) : List DistNode :=
  (List.range Row).flatMap (fun i =>
    ((List.range Row).filter (fun j => decide (i < j))).map
      (fun j => ⟨i, j, distM i j⟩))

/-- Node map of the merger: association list of `(index, element list)`. -/
abbrev AHCNodes := List (ℕ × List ℕ)

/-- Lines 1038-1041: one singleton node per curve index. -/
def initNodes (Row : ℕ) : AHCNodes :=
  (List.range Row).map (fun i => (i, [i]))

/-- Elements of the node with index `k` (`nodeMap[k].element`). -/
def lookupElems (nodes : AHCNodes) (k : ℕ) : List ℕ :=
  ((nodes.find? (fun nd => nd.1 == k)).map Prod.snd).getD []

/-- Lines 1046-1055 and 1095-1099/1111-1115: the linear scan for the pair of
globally minimal distance, keeping the first minimum encountered
(`if (dNodeVec[i].distance < minDist)`).  `none` models the code's `target`
staying `-1` (and the subsequent out-of-bounds `tempVec[target]`). -/
def scanMin (l : List DistNode) : Option DistNode :=
  l.foldl (fun acc p =>
    match acc with
    | none => some p
    | some q => if p.distance < q.distance then some p else some q) none

/-- Nodes surviving a merge of indices `a` and `b`
(`nodeMap.erase(poped.first); nodeMap.erase(poped.second)`, lines 1072-1073). -/
def removeKeys (nodes : AHCNodes) (a b : ℕ) : AHCNodes :=
  nodes.filter (fun nd => decide (nd.1 ≠ a ∧ nd.1 ≠ b))

/-- Lines 1086-1118: the candidate-pair rebuild after a merge.  Pairs touching
neither merged index are carried over (lines 1088-1102); one new pair is
created between every surviving node and the merged node, its distance
computed by `getDistAtNodes` (lines 1104-1118). -/
def rebuildPairs (pairs : List DistNode) (a b newId : ℕ) (others : AHCNodes)
    (newElems : List ℕ) (distM : ℕ → ℕ → ℚ) : List DistNode :=
  pairs.filter (fun p =>
      decide (p.first ≠ a ∧ p.first ≠ b ∧ p.second ≠ a ∧ p.second ≠ b)) ++
    others.map (fun nd => ⟨nd.1, newId, getDistAtNodes newElems nd.2 distM⟩)

/-- State of the merging loop: live nodes, candidate pairs, next fresh id. -/
structure AHCState where
  nodes : AHCNodes
  pairs : List DistNode
  nextId : ℕ
deriving DecidableEq

/-- Lines 1062-1073: the node-map update of one merge — concatenate the two
merged nodes' element lists into a node carrying the next fresh id, erase the
merged nodes. -/
def mergeNodesStep (nodes : AHCNodes) (a b newId : ℕ) : AHCNodes :=
  removeKeys nodes a b ++ [(newId, lookupElems nodes a ++ lookupElems nodes b)]

/-- One iteration of the do-while body of `hierarchicalMerging`
(lines 1059-1126): pop the minimal pair, concatenate the two element lists
into a node with the next fresh id, drop the merged nodes, rebuild the
candidate pairs.  `none` models the out-of-bounds access `tempVec[-1]` when
the scan finds no candidate. -/
def ahcBody (distM : ℕ → ℕ → ℚ) (s : AHCState) : Option AHCState :=
  match scanMin s.pairs with
  | none => none
  | some poped =>
    some ⟨mergeNodesStep s.nodes poped.first poped.second s.nextId,
          rebuildPairs s.pairs poped.first poped.second s.nextId
            (removeKeys s.nodes poped.first poped.second)
            (lookupElems s.nodes poped.first ++ lookupElems s.nodes poped.second) distM,
          s.nextId + 1⟩

/-- The do-while of `hierarchicalMerging` (lines 1059-1127): the body runs
FIRST, then `while (nodeMap.size() != numberOfClusters)` decides whether to
continue.  `none` models a crash of the body or exhaustion of the fuel (the
loop never reaching the requested size). -/
def ahcLoop (distM : ℕ → ℕ → ℚ) (target : ℕ) : AHCState → ℕ → Option AHCState
  | _, 0 => none
  | s, fuel + 1 =>
    match ahcBody distM s with
    | none => none
    | some s' => if s'.nodes.length = target then some s' else ahcLoop distM target s' fuel

/-- The state in which `hierarchicalMerging` enters its loop: singleton nodes,
all pairs from `setValue`, fresh ids starting at `Row` (line 1058). -/
def ahcInit (Row : ℕ) (distM : ℕ → ℕ → ℚ) : AHCState :=
  ⟨initNodes Row, setValue Row distM, Row⟩

/-- The concrete 3-curve distance matrix used to exhibit the `getDistAtNodes`
indexing defect: `d(0,1) = 1`, `d(0,2) = 10`, `d(1,2) = 20`, symmetric, zero
diagonal. -/
def dThree (i j : ℕ) : ℚ :=
  match i, j with
  | 0, 1 => 1
  | 1, 0 => 1
  | 0, 2 => 10
  | 2, 0 => 10
  | 1, 2 => 20
  | 2, 1 => 20
  | _, _ => 0

/-- Claim C1: in the first merge step on `dThree` the pair `{0}, {1}` is
merged and the rebuilt candidate for (`{0,1}`, `{2}`) stores the distance
`(d(0,0) + d(1,0)) / 2 = 1/2` — `getDistAtNodes` reads the matrix at the loop
indices — whereas the mean of the pairwise member distances is
`(d(0,2) + d(1,2)) / 2 = 15`.  The stored linkage distance is NOT the mean of
the membership distances. -/
theorem getDistAtNodes_not_membership_mean :
    (ahcBody dThree (ahcInit 3 dThree)).map (fun s => s.pairs) =
      some [⟨2, 3, 1/2⟩] ∧
    meanLinkage [0, 1] [2] dThree = 15 ∧
    getDistAtNodes [0, 1] [2] dThree = 1/2 ∧
    getDistAtNodes [0, 1] [2] dThree ≠ meanLinkage [0, 1] [2] dThree := by
  have hsv : setValue 3 dThree = [⟨0,1,1⟩, ⟨0,2,10⟩, ⟨1,2,20⟩] := by
    simp +decide [setValue, List.range_succ, dThree]
  have hscan : scanMin [(⟨0,1,1⟩ : DistNode), ⟨0,2,10⟩, ⟨1,2,20⟩] = some ⟨0,1,1⟩ := by
    norm_num [scanMin]
  have hget : getDistAtNodes [0, 1] [2] dThree = 1/2 := by
    norm_num [getDistAtNodes, dThree, List.range_succ]
  have hmean : meanLinkage [0, 1] [2] dThree = 15 := by
    norm_num [meanLinkage, dThree]
  refine ⟨?_, hmean, hget, by rw [hget, hmean]; norm_num⟩
  rw [ahcBody, ahcInit]
  simp only [hsv, hscan]
  simp +decide [lookupElems, removeKeys, rebuildPairs, mergeNodesStep, initNodes,
    List.range_succ, List.find?, hget]

/-- Claim C6: invoked with `targetClusters = Row = 2` the merger does NOT stop
immediately: being a do-while, its body runs before the size test, merging the
only two nodes into one (first conjunct), after which the node count can never
equal 2 again and the next scan finds no candidate (the code reads
`tempVec[-1]`) — the loop never returns a 2-node state (second conjunct, for
the fuel bound 10 covering every reachable state). -/
theorem ahc_target_eq_row_does_not_stop :
    (ahcBody dThree (ahcInit 2 dThree)).map (fun s => s.nodes.length) = some 1 ∧
    ahcLoop dThree 2 (ahcInit 2 dThree) 10 = none := by
  have hsv : setValue 2 dThree = [⟨0,1,1⟩] := by
    simp +decide [setValue, List.range_succ, dThree]
  have hbody : ahcBody dThree (ahcInit 2 dThree) =
      some ⟨[(2, [0, 1])], [], 3⟩ := by
    rw [ahcBody, ahcInit]
    simp only [hsv]
    have hscan : scanMin [(⟨0,1,1⟩ : DistNode)] = some ⟨0,1,1⟩ := by
      norm_num [scanMin]
    simp only [hscan]
    simp +decide [lookupElems, removeKeys, rebuildPairs, mergeNodesStep, initNodes,
      List.range_succ, List.find?]
  constructor
  · rw [hbody]; rfl
  · rw [ahcLoop, hbody]
    norm_num [ahcLoop, ahcBody, scanMin]

/-! ### Partition invariant (k-means membership lists and AHC live nodes)
K-means assignment: `performFullK_MeansByClusters` lines 597-623 (and the
identical reduced-space loop, lines 241-267) assign every row to the first
centroid attaining the strict running minimum of the scanned distances and
push the row index into exactly one `neighborVec` list. -/

/-- Lines 600-613: the nearest-centroid scan for one row, `dist = FLT_MAX`
then `if (tempDist < dist) { dist = tempDist; clusTemp = j; }`. -/
def nearestCluster (d : ℕ → ℚ) (k : ℕ) : ℕ :=
  (List.range k).foldl (fun acc j => if d j < d acc then j else acc) 0

/-- The cluster assignment of every row (`recorder[i] = clusTemp`). -/
def kmAssign (dist : ℕ → ℕ → ℚ) (k i : ℕ) : ℕ :=
  nearestCluster (dist i) k

/-- The membership list of raw cluster `c`
(`neighborVec[clusTemp].push_back(i)`, line 619). -/
def clusterMembers (assign : ℕ → ℕ) (Row c : ℕ) : List ℕ :=
  (List.range Row).filter (fun i => decide (assign i = c))

/-- All k membership lists of one k-means iteration. -/
def neighborVecModel (dist : ℕ → ℕ → ℚ) (Row k : ℕ) : List (List ℕ) :=
  (List.range k).map (fun c => clusterMembers (kmAssign dist k) Row c)

/-- Concatenation of all live nodes' element lists. -/
def elemsJoin (nodes : AHCNodes) : List ℕ :=
  nodes.flatMap (fun nd => nd.2)

/-- The partition invariant of the merger: the elements of the live nodes are
exactly `{0, ..., Row-1}`, each index once. -/
def isPartition (Row : ℕ) (nodes : AHCNodes) : Prop :=
  List.Perm (elemsJoin nodes) (List.range Row)

theorem nearestCluster_lt {d : ℕ → ℚ} {k : ℕ} (hk : 0 < k) : nearestCluster d k < k := by
  rw [nearestCluster]
  have : ∀ (l : List ℕ) (acc : ℕ), acc < k → (∀ j ∈ l, j < k) →
      (l.foldl (fun acc j => if d j < d acc then j else acc) acc) < k := by
    intro l
    induction l with
    | nil => intro acc hacc _; exact hacc
    | cons x t ih =>
        intro acc hacc hl
        simp only [List.foldl_cons]
        by_cases hx : d x < d acc
        · rw [if_pos hx]
          exact ih x (hl x (List.mem_cons_self x t)) (fun j hj => hl j (List.mem_cons_of_mem x hj))
        · rw [if_neg hx]
          exact ih acc hacc (fun j hj => hl j (List.mem_cons_of_mem x hj))
  exact this (List.range k) 0 hk (fun j hj => List.mem_range.mp hj)

/-- With nodup keys, a node map is a permutation of any of its entries consed
onto the map with that key filtered out. -/
theorem perm_cons_filter_key {nodes : AHCNodes} {a : ℕ} {ea : List ℕ}
    (hnd : (nodes.map Prod.fst).Nodup) (ha : (a, ea) ∈ nodes) :
    List.Perm nodes ((a, ea) :: nodes.filter (fun nd => decide (nd.1 ≠ a))) := by
  induction nodes with
  | nil => cases ha
  | cons hd t ih =>
      rcases List.mem_cons.mp ha with heq | hmem
      · subst heq
        have hkeys : a ∉ t.map Prod.fst := by
          simp only [List.map_cons, List.nodup_cons] at hnd
          exact hnd.1
        have hfil : t.filter (fun nd => decide (nd.1 ≠ a)) = t := by
          apply List.filter_eq_self.mpr
          intro nd hnd'
          simp only [decide_eq_true_eq]
          intro hcontra
          exact hkeys (List.mem_map.mpr ⟨nd, hnd', hcontra⟩)
        simp only [List.filter_cons]
        have : (decide ((a, ea).1 ≠ a)) = false := by simp
        rw [this, hfil]
        simp
      · have hka : hd.1 ≠ a := by
          simp only [List.map_cons, List.nodup_cons] at hnd
          intro hcontra
          exact hnd.1 (hcontra ▸ List.mem_map.mpr ⟨(a, ea), hmem, rfl⟩)
        have ht : (t.map Prod.fst).Nodup := by
          simp only [List.map_cons, List.nodup_cons] at hnd
          exact hnd.2
        have hperm := ih ht hmem
        simp only [List.filter_cons]
        have : (decide (hd.1 ≠ a)) = true := by simpa using hka
        rw [this]
        exact (hperm.cons hd).trans (List.Perm.swap _ _ _)

/-- With nodup keys, `nodeMap[k].element` is the element list stored with
key `k`. -/
theorem lookupElems_eq {nodes : AHCNodes} {a : ℕ} {ea : List ℕ}
    (hnd : (nodes.map Prod.fst).Nodup) (ha : (a, ea) ∈ nodes) :
    lookupElems nodes a = ea := by
  induction nodes with
  | nil => cases ha
  | cons hd t ih =>
      rcases List.mem_cons.mp ha with heq | hmem
      · subst heq
        simp [lookupElems, List.find?]
      · have hka : hd.1 ≠ a := by
          simp only [List.map_cons, List.nodup_cons] at hnd
          intro hcontra
          exact hnd.1 (hcontra ▸ List.mem_map.mpr ⟨(a, ea), hmem, rfl⟩)
        have ht : (t.map Prod.fst).Nodup := by
          simp only [List.map_cons, List.nodup_cons] at hnd
          exact hnd.2
        have := ih ht hmem
        simp only [lookupElems, List.find?] at this ⊢
        have hbeq : (hd.1 == a) = false := by simpa using hka
        rw [hbeq]
        exact this

/-- The elements of the merged node map are a permutation of the original
elements: merging moves `ea ++ eb` into one node and deletes the two donors. -/
theorem mergeNodesStep_elems_perm {nodes : AHCNodes} {a b : ℕ} {ea eb : List ℕ}
    (hnd : (nodes.map Prod.fst).Nodup) (ha : (a, ea) ∈ nodes) (hb : (b, eb) ∈ nodes)
    (hab : a ≠ b) (newId : ℕ) :
    List.Perm (elemsJoin (mergeNodesStep nodes a b newId)) (elemsJoin nodes) := by
  have hA := perm_cons_filter_key hnd ha
  have hndA : ((nodes.filter (fun nd => decide (nd.1 ≠ a))).map Prod.fst).Nodup :=
    ((List.filter_sublist _).map Prod.fst).nodup hnd
  have hbA : (b, eb) ∈ nodes.filter (fun nd => decide (nd.1 ≠ a)) := by
    apply List.mem_filter.mpr
    exact ⟨hb, by simpa using hab.symm⟩
  have hB := perm_cons_filter_key hndA hbA
  have hremove : (nodes.filter (fun nd => decide (nd.1 ≠ a))).filter
      (fun nd => decide (nd.1 ≠ b)) = removeKeys nodes a b := by
    rw [removeKeys, List.filter_filter]
    apply List.filter_congr
    intro x _
    simp [Bool.and_comm]
  have hperm : List.Perm nodes ((a, ea) :: (b, eb) :: removeKeys nodes a b) := by
    refine hA.trans ?_
    refine (hB.cons _).trans ?_
    rw [hremove]
  have hjoin : List.Perm (elemsJoin nodes)
      (ea ++ (eb ++ elemsJoin (removeKeys nodes a b))) := by
    have := hperm.flatMap_right (fun nd : ℕ × List ℕ => nd.2)
    simpa [elemsJoin] using this
  have hlookA : lookupElems nodes a = ea := lookupElems_eq hnd ha
  have hlookB : lookupElems nodes b = eb := lookupElems_eq hnd hb
  have hm : elemsJoin (mergeNodesStep nodes a b newId) =
      elemsJoin (removeKeys nodes a b) ++ (ea ++ eb) := by
    rw [mergeNodesStep, elemsJoin, List.flatMap_append, hlookA, hlookB]
    simp [elemsJoin]
  rw [hm]
  refine List.Perm.trans List.perm_append_comm ?_
  have hassoc : (ea ++ eb) ++ elemsJoin (removeKeys nodes a b) =
      ea ++ (eb ++ elemsJoin (removeKeys nodes a b)) := List.append_assoc ea eb _
  rw [hassoc]
  exact hjoin.symm

/-- Claim C4: (i) the k-means membership lists of one assignment step are
pairwise disjoint and cover exactly `{0,...,Row-1}`; (ii) the AHC merger
starts from a partition of `{0,...,Row-1}` and every merge of two distinct
live nodes preserves the partition, so it is an invariant of every
intermediate set of live nodes; (iii) any node map satisfying the invariant
has pairwise-disjoint element lists whose union is exactly `{0,...,Row-1}`. -/
theorem clustering_partitions (Row k : ℕ) (dist : ℕ → ℕ → ℚ)
    (nodes : AHCNodes) (a b newId : ℕ) (ea eb : List ℕ) (hk : 0 < k)
    (hnd : (nodes.map Prod.fst).Nodup) (ha : (a, ea) ∈ nodes) (hb : (b, eb) ∈ nodes)
    (hab : a ≠ b) :
    (List.Pairwise List.Disjoint (neighborVecModel dist Row k) ∧
      ∀ x, (∃ l ∈ neighborVecModel dist Row k, x ∈ l) ↔ x < Row) ∧
    isPartition Row (initNodes Row) ∧
    (isPartition Row nodes → isPartition Row (mergeNodesStep nodes a b newId)) ∧
    (isPartition Row nodes →
      List.Pairwise (fun n1 n2 : ℕ × List ℕ => n1.2.Disjoint n2.2) nodes ∧
      ∀ x, (∃ nd ∈ nodes, x ∈ nd.2) ↔ x < Row) := by
  refine ⟨⟨?_, ?_⟩, ?_, ?_, ?_⟩
  · rw [neighborVecModel, List.pairwise_map]
    have : List.Pairwise (· ≠ ·) (List.range k) :=
      (List.pairwise_lt_range k).imp Nat.ne_of_lt
    apply this.imp
    intro c c' hcc x hxc hxc'
    rw [clusterMembers, List.mem_filter] at hxc hxc'
    have h1 := of_decide_eq_true hxc.2
    have h2 := of_decide_eq_true hxc'.2
    exact hcc (h1 ▸ h2)
  · intro x
    constructor
    · rintro ⟨l, hl, hxl⟩
      rw [neighborVecModel] at hl
      obtain ⟨c, _, rfl⟩ := List.mem_map.mp hl
      rw [clusterMembers, List.mem_filter] at hxl
      exact List.mem_range.mp hxl.1
    · intro hx
      refine ⟨clusterMembers (kmAssign dist k) Row (kmAssign dist k x), ?_, ?_⟩
      · rw [neighborVecModel]
        exact List.mem_map.mpr ⟨kmAssign dist k x,
          List.mem_range.mpr (nearestCluster_lt hk), rfl⟩
      · rw [clusterMembers, List.mem_filter]
        exact ⟨List.mem_range.mpr hx, by simp⟩
  · rw [isPartition]
    have : elemsJoin (initNodes Row) = List.range Row := by
      rw [elemsJoin, initNodes, List.flatMap_map]
      simp
    rw [this]
  · intro hp
    rw [isPartition] at hp ⊢
    exact (mergeNodesStep_elems_perm hnd ha hb hab newId).trans hp
  · intro hp
    rw [isPartition] at hp
    have hnodup : (elemsJoin nodes).Nodup := (hp.symm.nodup (List.nodup_range Row))
    constructor
    · rw [elemsJoin] at hnodup
      exact (List.nodup_flatMap.mp hnodup).2
    · intro x
      have hmem : x ∈ elemsJoin nodes ↔ x < Row := by
        rw [hp.mem_iff, List.mem_range]
      rw [← hmem, elemsJoin, List.mem_flatMap]

/-- Concrete instance data for the partition theorem: a 3-node map about to
merge the nodes with keys 0 and 1. -/
def nodesW : AHCNodes := [(0, [0]), (1, [1]), (2, [2])]

/-- Claim C4 witness: the partition theorem applied to `Row = 3`, `k = 2`, the
distance `(i, j) ↦ i + j`, and the node map `nodesW` merging keys 0 and 1
into the fresh node 3. -/
theorem clustering_partitions_witness :
    (List.Pairwise List.Disjoint (neighborVecModel (fun i j => ((i + j : ℕ) : ℚ)) 3 2) ∧
      ∀ x, (∃ l ∈ neighborVecModel (fun i j => ((i + j : ℕ) : ℚ)) 3 2, x ∈ l) ↔ x < 3) ∧
    isPartition 3 (initNodes 3) ∧
    (isPartition 3 nodesW → isPartition 3 (mergeNodesStep nodesW 0 1 3)) ∧
    (isPartition 3 nodesW →
      List.Pairwise (fun n1 n2 : ℕ × List ℕ => n1.2.Disjoint n2.2) nodesW ∧
      ∀ x, (∃ nd ∈ nodesW, x ∈ nd.2) ↔ x < 3) :=
  clustering_partitions 3 2 (fun i j => ((i + j : ℕ) : ℚ)) nodesW 0 1 3 [0] [1]
    (by decide) (by decide) (by decide) (by decide) (by decide)

/-! ### Candidate-pair set invariant
`setValue` fills `Row*(Row-1)/2` slots, one per ordered pair `i < j`
(lines 1187-1204, with `assert(tag == dNodeVec.size())`); after each merge
`hierarchicalMerging` rebuilds a vector of `n*(n-1)/2` slots for the `n`
remaining nodes (line 1086, with `assert(current == tempVec.size())`),
carrying over untouched pairs and appending one fresh pair per survivor. -/

/-- The unordered pair of node indices of a candidate. -/
def toPair (p : DistNode) : Finset ℕ :=
  {p.first, p.second}

/-- The candidate-pair invariant: the list holds exactly one entry for every
unordered pair of live node indices. -/
def pairsInv (live : Finset ℕ) (pairs : List DistNode) : Prop :=
  (pairs.map toPair).Nodup ∧ (pairs.map toPair).toFinset = live.powersetCard 2

/-- Two strictly ordered unordered pairs of naturals are equal only
componentwise. -/
theorem pair_eq_pair_nat {i j k l : ℕ} (h1 : i < j) (h2 : k < l)
    (h : ({i, j} : Finset ℕ) = {k, l}) : i = k ∧ j = l := by
  have hi : i ∈ ({k, l} : Finset ℕ) := h ▸ (Finset.mem_insert_self i {j})
  have hj : j ∈ ({k, l} : Finset ℕ) := h ▸ (Finset.mem_insert.mpr (Or.inr (Finset.mem_singleton_self j)))
  simp only [Finset.mem_insert, Finset.mem_singleton] at hi hj
  have hk : k ∈ ({i, j} : Finset ℕ) := h ▸ (Finset.mem_insert_self k {l})
  simp only [Finset.mem_insert, Finset.mem_singleton] at hk
  rcases hi with hik | hil
  · subst hik
    rcases hj with hjk | hjl
    · omega
    · exact ⟨rfl, hjl⟩
  · rcases hj with hjk | hjl <;> rcases hk with hki | hkj <;> omega

/-- An invariant pair list has exactly `n*(n-1)/2` entries for `n` live
nodes. -/
theorem pairsInv_length {live : Finset ℕ} {pairs : List DistNode}
    (h : pairsInv live pairs) : pairs.length = live.card * (live.card - 1) / 2 := by
  have h1 : pairs.length = (pairs.map toPair).length := (List.length_map _ _).symm
  have h2 : (pairs.map toPair).toFinset.card = (pairs.map toPair).length :=
    List.toFinset_card_of_nodup h.1
  rw [h1, ← h2, h.2, Finset.card_powersetCard, Nat.choose_two_right]

/-- The pair images of the freshly built `setValue` list. -/
theorem setValue_map_toPair (Row : ℕ) (distM : ℕ → ℕ → ℚ) :
    (setValue Row distM).map toPair =
      (List.range Row).flatMap (fun i =>
        ((List.range Row).filter (fun j => decide (i < j))).map
          (fun j => ({i, j} : Finset ℕ))) := by
  rw [setValue, List.map_flatMap]
  apply List.flatMap_congr
  intro i _
  rw [List.map_map]
  apply List.map_congr_left
  intro j _
  rfl

/-- `setValue` establishes the candidate-pair invariant: one entry per
unordered pair of the initial `Row` singleton nodes. -/
theorem setValue_pairsInv (Row : ℕ) (distM : ℕ → ℕ → ℚ) :
    pairsInv (Finset.range Row) (setValue Row distM) := by
  rw [pairsInv, setValue_map_toPair]
  constructor
  · rw [List.nodup_flatMap]
    constructor
    · intro i _
      apply List.Nodup.map_on
      · intro j hj j' hj' heq
        have h1 : i < j := of_decide_eq_true (List.mem_filter.mp hj).2
        have h2 : i < j' := of_decide_eq_true (List.mem_filter.mp hj').2
        exact (pair_eq_pair_nat h1 h2 heq).2
      · exact (List.nodup_range Row).filter _
    · apply (List.pairwise_lt_range Row).imp
      intro i i' hii s hs hs'
      simp only [Function.onFun] at hs hs'
      obtain ⟨j, hj, rfl⟩ := List.mem_map.mp hs
      obtain ⟨j', hj', heq⟩ := List.mem_map.mp hs'
      have h1 : i < j := of_decide_eq_true (List.mem_filter.mp hj).2
      have h2 : i' < j' := of_decide_eq_true (List.mem_filter.mp hj').2
      exact absurd (pair_eq_pair_nat h2 h1 heq).1.symm (Nat.ne_of_lt hii)
  · apply Finset.ext
    intro s
    rw [List.mem_toFinset, List.mem_flatMap, Finset.mem_powersetCard]
    constructor
    · rintro ⟨i, hi, hs⟩
      obtain ⟨j, hj, rfl⟩ := List.mem_map.mp hs
      have hij : i < j := of_decide_eq_true (List.mem_filter.mp hj).2
      have hjR : j ∈ List.range Row := (List.mem_filter.mp hj).1
      constructor
      · intro x hx
        simp only [Finset.mem_insert, Finset.mem_singleton] at hx
        rcases hx with rfl | rfl
        · exact Finset.mem_coe.mpr (by simpa using hi)
        · exact Finset.mem_coe.mpr (by simpa using hjR)
      · exact Finset.card_pair (Nat.ne_of_lt hij)
    · rintro ⟨hsub, hcard⟩
      obtain ⟨x, y, hxy, rfl⟩ := Finset.card_eq_two.mp hcard
      have hx : x < Row := by
        have := hsub (Finset.mem_insert_self x {y})
        simpa using this
      have hy : y < Row := by
        have := hsub (Finset.mem_insert.mpr (Or.inr (Finset.mem_singleton_self y)))
        simpa using this
      rcases Nat.lt_or_gt_of_ne hxy with hlt | hgt
      · exact ⟨x, List.mem_range.mpr hx,
          List.mem_map.mpr ⟨y, List.mem_filter.mpr
            ⟨List.mem_range.mpr hy, decide_eq_true hlt⟩, rfl⟩⟩
      · exact ⟨y, List.mem_range.mpr hy,
          List.mem_map.mpr ⟨x, List.mem_filter.mpr
            ⟨List.mem_range.mpr hx, decide_eq_true hgt⟩, Finset.pair_comm y x⟩⟩

/-- The rebuild step preserves the candidate-pair invariant: carried-over
pairs are exactly the unordered pairs of surviving nodes, and the fresh pairs
add each survivor paired with the merged node. -/
theorem rebuildPairs_pairsInv {live : Finset ℕ} {pairs : List DistNode}
    {a b newId : ℕ} {others : AHCNodes} (newElems : List ℕ) (distM : ℕ → ℕ → ℚ)
    (hinv : pairsInv live pairs) (ha : a ∈ live) (hb : b ∈ live) (hab : a ≠ b)
    (hnew : newId ∉ live) (hoth1 : (others.map Prod.fst).Nodup)
    (hoth2 : (others.map Prod.fst).toFinset = (live.erase a).erase b) :
    pairsInv (insert newId ((live.erase a).erase b))
      (rebuildPairs pairs a b newId others newElems distM) := by
  have hEsub : ((live.erase a).erase b : Finset ℕ) ⊆ live :=
    fun x hx => Finset.mem_of_mem_erase (Finset.mem_of_mem_erase hx)
  have hnewE : newId ∉ ((live.erase a).erase b : Finset ℕ) :=
    fun hx => hnew (hEsub hx)
  -- the carried-over part
  have hcarry : (pairs.filter (fun p =>
      decide (p.first ≠ a ∧ p.first ≠ b ∧ p.second ≠ a ∧ p.second ≠ b))).map toPair =
      (pairs.map toPair).filter (fun s => decide (a ∉ s ∧ b ∉ s)) := by
    have hcongr : pairs.filter (fun p =>
        decide (p.first ≠ a ∧ p.first ≠ b ∧ p.second ≠ a ∧ p.second ≠ b)) =
        pairs.filter ((fun s => decide (a ∉ s ∧ b ∉ s)) ∘ toPair) := by
      apply List.filter_congr
      intro p _
      simp only [Function.comp]
      apply decide_eq_decide.mpr
      simp only [toPair, Finset.mem_insert, Finset.mem_singleton]
      constructor
      · rintro ⟨h1, h2, h3, h4⟩
        constructor
        · rintro (h | h) <;> [exact h1 h.symm; exact h3 h.symm]
        · rintro (h | h) <;> [exact h2 h.symm; exact h4 h.symm]
      · rintro ⟨h1, h2⟩
        refine ⟨?_, ?_, ?_, ?_⟩ <;> intro h <;>
          [exact h1 (Or.inl h.symm); exact h2 (Or.inl h.symm);
           exact h1 (Or.inr h.symm); exact h2 (Or.inr h.symm)]
    rw [hcongr, ← List.filter_map]
  -- the fresh part
  have hfresh : (others.map (fun nd =>
      (⟨nd.1, newId, getDistAtNodes newElems nd.2 distM⟩ : DistNode))).map toPair =
      (others.map Prod.fst).map (fun t => ({t, newId} : Finset ℕ)) := by
    rw [List.map_map, List.map_map]
    apply List.map_congr_left
    intro nd _
    rfl
  have hkeysE : ∀ t ∈ others.map Prod.fst, t ∈ ((live.erase a).erase b : Finset ℕ) := by
    intro t ht
    rw [← hoth2]
    exact List.mem_toFinset.mpr ht
  have hkeys_ne : ∀ t ∈ others.map Prod.fst, t ≠ newId := by
    intro t ht heq
    exact hnewE (heq ▸ hkeysE t ht)
  rw [pairsInv, rebuildPairs, List.map_append, hcarry, hfresh]
  have hnd_carry : ((pairs.map toPair).filter (fun s => decide (a ∉ s ∧ b ∉ s))).Nodup :=
    hinv.1.filter _
  have hnd_fresh : ((others.map Prod.fst).map (fun t => ({t, newId} : Finset ℕ))).Nodup := by
    apply List.Nodup.map_on
    · intro t ht t' ht' heq
      have h1 : t ∈ ({t', newId} : Finset ℕ) := heq ▸ Finset.mem_insert_self t {newId}
      simp only [Finset.mem_insert, Finset.mem_singleton] at h1
      rcases h1 with h | h
      · exact h
      · exact absurd h (hkeys_ne t ht)
    · exact hoth1
  have hmem_carry : ∀ s ∈ (pairs.map toPair).filter (fun s => decide (a ∉ s ∧ b ∉ s)),
      s ∈ live.powersetCard 2 := by
    intro s hs
    have : s ∈ pairs.map toPair := (List.mem_filter.mp hs).1
    rw [← hinv.2]
    exact List.mem_toFinset.mpr this
  have hdisj : List.Disjoint
      ((pairs.map toPair).filter (fun s => decide (a ∉ s ∧ b ∉ s)))
      ((others.map Prod.fst).map (fun t => ({t, newId} : Finset ℕ))) := by
    intro s hs hs'
    obtain ⟨t, ht, rfl⟩ := List.mem_map.mp hs'
    have hsub : ({t, newId} : Finset ℕ) ⊆ live :=
      (Finset.mem_powersetCard.mp (hmem_carry _ hs)).1
    exact hnew (hsub (Finset.mem_insert.mpr (Or.inr (Finset.mem_singleton_self newId))))
  refine ⟨hnd_carry.append hnd_fresh hdisj, ?_⟩
  apply Finset.ext
  intro s
  rw [List.toFinset_append, Finset.mem_union, List.mem_toFinset, List.mem_toFinset,
    Finset.mem_powersetCard]
  constructor
  · rintro (hs | hs)
    · have hm := Finset.mem_powersetCard.mp (hmem_carry s hs)
      have hcond := of_decide_eq_true (List.mem_filter.mp hs).2
      constructor
      · intro x hx
        have hxl : x ∈ live := hm.1 hx
        have hxa : x ≠ a := fun h => hcond.1 (h ▸ hx)
        have hxb : x ≠ b := fun h => hcond.2 (h ▸ hx)
        exact Finset.mem_insert.mpr (Or.inr (Finset.mem_erase.mpr
          ⟨hxb, Finset.mem_erase.mpr ⟨hxa, hxl⟩⟩))
      · exact hm.2
    · obtain ⟨t, ht, rfl⟩ := List.mem_map.mp hs
      have htE := hkeysE t ht
      constructor
      · intro x hx
        simp only [Finset.mem_insert, Finset.mem_singleton] at hx
        rcases hx with rfl | rfl
        · exact Finset.mem_insert.mpr (Or.inr htE)
        · exact Finset.mem_insert_self x _
      · exact Finset.card_pair (hkeys_ne t ht)
  · rintro ⟨hsub, hcard⟩
    obtain ⟨x, y, hxy, rfl⟩ := Finset.card_eq_two.mp hcard
    by_cases hn : newId ∈ ({x, y} : Finset ℕ)
    · right
      simp only [Finset.mem_insert, Finset.mem_singleton] at hn
      have hxy_mem : ∀ z ∈ ({x, y} : Finset ℕ), z = newId ∨
          z ∈ ((live.erase a).erase b : Finset ℕ) := by
        intro z hz
        have := hsub hz
        rcases Finset.mem_insert.mp this with h | h
        · exact Or.inl h
        · exact Or.inr h
      rcases hn with h | h
      · -- newId = x
        have hy' : y = newId ∨ y ∈ ((live.erase a).erase b : Finset ℕ) :=
          hxy_mem y (Finset.mem_insert.mpr (Or.inr (Finset.mem_singleton_self y)))
        rcases hy' with h' | h'
        · exact absurd (h'.trans h) (Ne.symm hxy)
        · refine List.mem_map.mpr ⟨y, ?_, ?_⟩
          · rw [← hoth2] at h'
            exact List.mem_toFinset.mp h'
          · rw [h]
            exact Finset.pair_comm y x
      · -- newId = y
        have hx' : x = newId ∨ x ∈ ((live.erase a).erase b : Finset ℕ) :=
          hxy_mem x (Finset.mem_insert_self x {y})
        rcases hx' with h' | h'
        · exact absurd (h'.trans h) hxy
        · refine List.mem_map.mpr ⟨x, ?_, ?_⟩
          · rw [← hoth2] at h'
            exact List.mem_toFinset.mp h'
          · rw [h]
    · left
      have hsubE : ({x, y} : Finset ℕ) ⊆ ((live.erase a).erase b : Finset ℕ) := by
        intro z hz
        rcases Finset.mem_insert.mp (hsub hz) with h | h
        · exact absurd (h ▸ hz) hn
        · exact h
      have hxa : a ∉ ({x, y} : Finset ℕ) := by
        intro hcontra
        have := Finset.mem_erase.mp (Finset.mem_of_mem_erase (hsubE hcontra))
        exact this.1 rfl
      have hxb : b ∉ ({x, y} : Finset ℕ) := by
        intro hcontra
        exact (Finset.mem_erase.mp (hsubE hcontra)).1 rfl
      apply List.mem_filter.mpr
      constructor
      · rw [← List.mem_toFinset, hinv.2, Finset.mem_powersetCard]
        exact ⟨fun z hz => hEsub (hsubE hz), hcard⟩
      · exact decide_eq_true ⟨hxa, hxb⟩

/-- Claim C9: (i) `setValue` initializes the candidate-pair set with exactly
one entry per unordered pair of the `Row` initial singleton nodes —
`Row*(Row-1)/2` entries in total; (ii) after a merge of live nodes `a ≠ b`
into a fresh node `newId`, the rebuilt vector again holds exactly one entry
per unordered pair of live nodes: carried-over pairs are those touching
neither merged node, one fresh pair links each survivor to the new node, and
the vector of size `n*(n-1)/2` for the `n = live.card - 1` remaining nodes is
filled completely. -/
theorem candidate_pairs_exact (Row : ℕ) (distM distM2 : ℕ → ℕ → ℚ)
    (live : Finset ℕ) (pairs : List DistNode) (a b newId : ℕ) (others : AHCNodes)
    (newElems : List ℕ)
    (hinv : pairsInv live pairs) (ha : a ∈ live) (hb : b ∈ live) (hab : a ≠ b)
    (hnew : newId ∉ live) (hoth1 : (others.map Prod.fst).Nodup)
    (hoth2 : (others.map Prod.fst).toFinset = (live.erase a).erase b) :
    (pairsInv (Finset.range Row) (setValue Row distM) ∧
      (setValue Row distM).length = Row * (Row - 1) / 2) ∧
    (pairsInv (insert newId ((live.erase a).erase b))
        (rebuildPairs pairs a b newId others newElems distM2) ∧
      (rebuildPairs pairs a b newId others newElems distM2).length =
        (live.card - 1) * (live.card - 2) / 2) := by
  have hstep := rebuildPairs_pairsInv newElems distM2 hinv ha hb hab hnew hoth1 hoth2
  have hcard2 : 2 ≤ live.card := by
    have hsub : ({a, b} : Finset ℕ) ⊆ live := by
      intro x hx
      rcases Finset.mem_insert.mp hx with rfl | hx
      · exact ha
      · exact (Finset.mem_singleton.mp hx) ▸ hb
    have := Finset.card_le_card hsub
    rwa [Finset.card_pair hab] at this
  have hEcard : ((live.erase a).erase b).card = live.card - 2 := by
    have h1 : (live.erase a).card = live.card - 1 := Finset.card_erase_of_mem ha
    have hbmem : b ∈ live.erase a := Finset.mem_erase.mpr ⟨(Ne.symm hab), hb⟩
    have h2 : ((live.erase a).erase b).card = (live.erase a).card - 1 :=
      Finset.card_erase_of_mem hbmem
    omega
  have hnewE : newId ∉ ((live.erase a).erase b : Finset ℕ) := by
    intro hx
    exact hnew (Finset.mem_of_mem_erase (Finset.mem_of_mem_erase hx))
  have hlive' : (insert newId ((live.erase a).erase b)).card = live.card - 1 := by
    rw [Finset.card_insert_of_not_mem hnewE, hEcard]
    omega
  refine ⟨⟨setValue_pairsInv Row distM, ?_⟩, hstep, ?_⟩
  · rw [pairsInv_length (setValue_pairsInv Row distM), Finset.card_range]
  · rw [pairsInv_length hstep, hlive']
    have h21 : live.card - 1 - 1 = live.card - 2 := by omega
    rw [h21]

/-- Distance matrix for the candidate-pair witness (values irrelevant to the
pair structure). -/
def dZero (_ _ : ℕ) : ℚ := 0

/-- Claim C9 witness: the candidate-pair theorem at `Row = 3`, merging live
nodes 0 and 1 of `{0, 1, 2}` into the fresh node 3, with survivor node 2. -/
theorem candidate_pairs_exact_witness :
    (pairsInv (Finset.range 3) (setValue 3 dZero) ∧
      (setValue 3 dZero).length = 3 * (3 - 1) / 2) ∧
    (pairsInv (insert 3 (((Finset.range 3).erase 0).erase 1))
        (rebuildPairs (setValue 3 dZero) 0 1 3 [(2, [2])] [0, 1] dZero) ∧
      (rebuildPairs (setValue 3 dZero) 0 1 3 [(2, [2])] [0, 1] dZero).length =
        ((Finset.range 3).card - 1) * ((Finset.range 3).card - 2) / 2) :=
  candidate_pairs_exact 3 dZero dZero (Finset.range 3) (setValue 3 dZero) 0 1 3
    [(2, [2])] [0, 1] (setValue_pairsInv 3 dZero) (by decide) (by decide) (by decide)
    (by decide) (by decide) (by decide)

/-! ### K-means centroid update and empty clusters
`performFullK_MeansByClusters` lines 627-638 (identically lines 271-282 for
the reduced-space engine): the accumulated per-cluster sums are divided by the
member count and written back only under `if (storage[i] > 0)`; an empty
cluster's centroid row is untouched, and the function signals nothing. -/

/-- Row vectors over ℚ. -/
abbrev VecQ := List ℚ

/-- Componentwise vector sum. -/
def vecAdd (u v : VecQ) : VecQ :=
  List.zipWith (· + ·) u v

/-- `storage[c]`: how many of the `Row` points the assignment sends to
cluster `c` (lines 617-618). -/
def storageOf (assign : ℕ → ℕ) (Row c : ℕ) : ℕ :=
  ((List.range Row).filter (fun i => decide (assign i = c))).length

/-- `centerTemp.row(c)`: the accumulated coordinate sum of the points assigned
to cluster `c` (line 620). -/
def centerTempRow (points : ℕ → VecQ) (assign : ℕ → ℕ) (Row d c : ℕ) : VecQ :=
  ((List.range Row).filter (fun i => decide (assign i = c))).foldl
    (fun acc i => vecAdd acc (points i)) (List.replicate d 0)

/-- Lines 627-638: the centroid update — divide the accumulated sum by the
member count and overwrite the centroid if the cluster is non-empty, keep the
old centroid row otherwise.  The update is total: no error value exists. -/
def updateCenter (points : ℕ → VecQ) (assign : ℕ → ℕ) (Row d : ℕ)
    (old : ℕ → VecQ) (c : ℕ) : VecQ :=
  if 0 < storageOf assign Row c then
    (centerTempRow points assign Row d c).map (fun x => x / storageOf assign Row c)
  else old c

/-- Claim C8: a cluster that receives no assigned points in an iteration keeps
its centroid row exactly unchanged by the update step; the update returns a
plain centroid row (the function's codomain has no error component, matching
the code, which reports nothing to the caller). -/
theorem empty_cluster_center_unchanged (points : ℕ → VecQ) (assign : ℕ → ℕ)
    (Row d : ℕ) (old : ℕ → VecQ) (c : ℕ) (hempty : storageOf assign Row c = 0) :
    updateCenter points assign Row d old c = old c := by
  rw [updateCenter, if_neg]
  rw [hempty]
  exact lt_irrefl 0

/-- Claim C8 witness: with both points assigned to cluster 0, cluster 1 is
empty and its centroid `[3, 4]` survives the update verbatim. -/
theorem empty_cluster_center_unchanged_witness :
    updateCenter (fun _ => [1, 1]) (fun _ => 0) 2 2 (fun _ => [3, 4]) 1 = [3, 4] :=
  empty_cluster_center_unchanged (fun _ => [1, 1]) (fun _ => 0) 2 2
    (fun _ => [3, 4]) 1 (by decide)

/-! ### Raw-space k-means finalization: the `groupNo <= 1` early return
`performFullK_MeansByClusters` lines 643-826.  The labels (`group`), sizes
(`totalNum`), representatives (`closest`/`furthest`) and mean-centroids
(`massCenter`) are all filled before line 743; `if (groupNo <= 1) return;`
then guards the distance-matrix cache file, the Silhouette and Validity
evaluators, the remaining instrumentation events and the readme write. -/

/-- The number of non-empty clusters (`nonZero`/`groupNo`, lines 649-669). -/
def groupNoOf (storage : List ℕ) : ℕ :=
  (storage.filter (fun s => decide (0 < s))).length

/-- Lines 662-669: the relabeling rank of raw cluster `i` — its position among
the non-empty clusters when sorted by ascending `(size, index)` (the
`multimap` iterates keys ascending, equal keys in insertion = index order). -/
def increasingOrderOf (storage : List ℕ) (i : ℕ) : ℕ :=
  ((List.range storage.length).filter (fun j => decide (0 < storage.getD j 0))).countP
    (fun j => decide (storage.getD j 0 < storage.getD i 0 ∨
      (storage.getD j 0 = storage.getD i 0 ∧ j < i)))

/-- Lines 677-682: `group[i] = increasingOrder[recorder[i]]`. -/
def groupOut (storage recorder : List ℕ) : List ℕ :=
  recorder.map (increasingOrderOf storage)

/-- Lines 677-682: `totalNum[i] = storage[recorder[i]]`. -/
def totalNumOut (storage recorder : List ℕ) : List ℕ :=
  recorder.map (fun c => storage.getD c 0)

/-- First index of the scan attaining the strict running minimum of `f`
(`shortest = FLT_MAX; if (toCenter < shortest) ...`, lines 698-709). -/
def firstArgmin (f : ℕ → ℚ) (l : List ℕ) : ℕ :=
  (l.foldl (fun acc i =>
    match acc with
    | none => some i
    | some j => if f i < f j then some i else some j) none).getD 0

/-- First index of the scan attaining the strict running maximum of `f`
(`farDist = FLT_MIN; if (toCenter > farDist) ...`, lines 711-716). -/
def firstArgmax (f : ℕ → ℚ) (l : List ℕ) : ℕ :=
  (l.foldl (fun acc i =>
    match acc with
    | none => some i
    | some j => if f j < f i then some i else some j) none).getD 0

/-- Lines 689-722: one `(representative, relabeled id)` record per non-empty
cluster, the representative being the member closest to the centroid under
the dissimilarity `dis c i` (cluster `c`, row `i`). -/
def closestOut (storage recorder : List ℕ) (dis : ℕ → ℕ → ℚ) : List (ℕ × ℕ) :=
  ((List.range storage.length).filter (fun c => decide (0 < storage.getD c 0))).map
    (fun c => (firstArgmin (dis c)
      ((List.range recorder.length).filter (fun i => decide (recorder.getD i 0 = c))),
      increasingOrderOf storage c))

/-- Lines 689-722, the farthest representatives. -/
def furthestOut (storage recorder : List ℕ) (dis : ℕ → ℕ → ℚ) : List (ℕ × ℕ) :=
  ((List.range storage.length).filter (fun c => decide (0 < storage.getD c 0))).map
    (fun c => (firstArgmax (dis c)
      ((List.range recorder.length).filter (fun i => decide (recorder.getD i 0 = c))),
      increasingOrderOf storage c))

/-- Lines 725-738: one `(centroid row, relabeled id)` record per non-empty
cluster. -/
def massCenterOut (storage : List ℕ) (centers : ℕ → VecQ) : List (VecQ × ℕ) :=
  ((List.range storage.length).filter (fun c => decide (0 < storage.getD c 0))).map
    (fun c => (centers c, increasingOrderOf storage c))

/-- The observable side effects of the finalization tail (everything after
line 743): whether the distance-matrix cache file is read or written, whether
the Silhouette and Validity evaluators run, whether the readme is written,
and how many instrumentation events are appended. -/
structure TailEffects where
  distFileTouched : Bool
  silhouetteRun : Bool
  validityRun : Bool
  readmeWritten : Bool
  eventsAppended : ℕ
deriving DecidableEq

/-- The outputs `performFullK_MeansByClusters` fills before line 743. -/
structure TailOutputs where
  group : List ℕ
  totalNum : List ℕ
  closest : List (ℕ × ℕ)
  furthest : List (ℕ × ℕ)
  massCenter : List (VecQ × ℕ)
deriving DecidableEq

/-- Lines 643-826 of `performFullK_MeansByClusters`: fill labels, sizes,
representatives and mean-centroids, then — only when more than one group was
generated — touch the distance-matrix cache, run Silhouette (line 804) and
Validity (line 816), append the three remaining instrumentation events
(lines 809-821) and write the readme (line 824). -/
def fullKMeansTail (storage recorder : List ℕ) (dis : ℕ → ℕ → ℚ)
    (centers : ℕ → VecQ) : TailOutputs × TailEffects :=
  let outputs : TailOutputs :=
    { group := groupOut storage recorder
      totalNum := totalNumOut storage recorder
      closest := closestOut storage recorder dis
      furthest := furthestOut storage recorder dis
      massCenter := massCenterOut storage centers }
  if groupNoOf storage ≤ 1 then
    (outputs, ⟨false, false, false, false, 0⟩)
  else
    (outputs, ⟨true, true, true, true, 3⟩)

/-- Claim C10: when at most one non-empty cluster was produced, the raw-space
k-means finalization returns right after filling labels, sizes,
representatives and mean-centroids: the distance-matrix cache file is neither
read nor written, neither the Silhouette nor the Validity evaluator runs, and
no further instrumentation or readme output is appended — whereas with two or
more groups every one of those effects happens.  The outputs are computed
either way. -/
theorem fullKMeansTail_early_return (storage recorder : List ℕ)
    (dis : ℕ → ℕ → ℚ) (centers : ℕ → VecQ) (hle : groupNoOf storage ≤ 1) :
    (fullKMeansTail storage recorder dis centers).2 = ⟨false, false, false, false, 0⟩ ∧
    (fullKMeansTail storage recorder dis centers).1 =
      { group := groupOut storage recorder
        totalNum := totalNumOut storage recorder
        closest := closestOut storage recorder dis
        furthest := furthestOut storage recorder dis
        massCenter := massCenterOut storage centers } := by
  rw [fullKMeansTail]
  simp only [if_pos hle]
  exact ⟨by trivial, by trivial⟩

/-- Claim C10 witness: a run whose four rows all land in cluster 0
(`storage = [4, 0]`, one non-empty group) triggers the early return. -/
theorem fullKMeansTail_early_return_witness :
    (fullKMeansTail [4, 0] [0, 0, 0, 0] dZero (fun _ => [0])).2 =
      ⟨false, false, false, false, 0⟩ ∧
    (fullKMeansTail [4, 0] [0, 0, 0, 0] dZero (fun _ => [0])).1 =
      { group := groupOut [4, 0] [0, 0, 0, 0]
        totalNum := totalNumOut [4, 0] [0, 0, 0, 0]
        closest := closestOut [4, 0] [0, 0, 0, 0] dZero
        furthest := furthestOut [4, 0] [0, 0, 0, 0] dZero
        massCenter := massCenterOut [4, 0] (fun _ => [0]) } :=
  fullKMeansTail_early_return [4, 0] [0, 0, 0, 0] dZero (fun _ => [0]) (by decide)

/-! ### Balanced entropy
Lines 646-660 of `performFullK_MeansByClusters` (identically lines 295-320 of
`performPC_KMeans` and 895-919 of `perform_AHC`): `entropy +=
probability*log2f(probability)` over the non-empty clusters, then
unconditionally `entropy = -entropy/log2f(nonZero)`.  Exact real logarithms
replace `log2f`; the IEEE division `-0/0 = NaN` arising for a single
non-empty cluster (`log2f(1) = 0` exactly) is modelled by `fdivNaN`, which
yields no value when the divisor is zero. -/

/-- The sizes of the non-empty clusters (`if (storage[i] > 0)`,
lines 650-658). -/
def nonzeroSizes (storage : List ℕ) : List ℕ :=
  storage.filter (fun s => decide (0 < s))

/-- The accumulated `entropy` of lines 650-659: `Σ p·log2 p` over non-empty
clusters, `p = storage[i]/Row`. -/
noncomputable def entropyAcc (storage : List ℕ) (Row : ℕ) : ℝ :=
  ((nonzeroSizes storage).map
    (fun s : ℕ => ((s : ℝ) / (Row : ℝ)) * Real.logb 2 ((s : ℝ) / (Row : ℝ)))).sum

/-- Division as IEEE produces it at the one place the code can divide by
zero: `x/0` (here `-0/0`) is not a real number. -/
noncomputable def fdivNaN (x y : ℝ) : Option ℝ :=
  if y = 0 then none else some (x / y)

/-- Line 660: `entropy = -entropy / log2f(nonZero)`, with no special case for
a single non-empty cluster. -/
noncomputable def balancedEntropy (storage : List ℕ) (Row : ℕ) : Option ℝ :=
  fdivNaN (-(entropyAcc storage Row)) (Real.logb 2 (groupNoOf storage))

theorem list_sum_nonpos_real {l : List ℝ} (h : ∀ x ∈ l, x ≤ 0) : l.sum ≤ 0 := by
  induction l with
  | nil => simp
  | cons a t ih =>
      rw [List.sum_cons]
      have ha := h a (List.mem_cons_self a t)
      have ht := ih (fun x hx => h x (List.mem_cons_of_mem a hx))
      linarith

theorem list_sum_of_const_real {α : Type} {l : List α} {f : α → ℝ} {c : ℝ}
    (h : ∀ x ∈ l, f x = c) : (l.map f).sum = l.length * c := by
  induction l with
  | nil => simp
  | cons a t ih =>
      rw [List.map_cons, List.sum_cons, h a (List.mem_cons_self a t),
        ih (fun x hx => h x (List.mem_cons_of_mem a hx)), List.length_cons]
      push_cast
      ring

theorem list_sum_map_add_real {α : Type} (l : List α) (f g : α → ℝ) :
    (l.map (fun x => f x + g x)).sum = (l.map f).sum + (l.map g).sum := by
  induction l with
  | nil => simp
  | cons a t ih =>
      simp only [List.map_cons, List.sum_cons, ih]
      ring

/-- Dropping the zero sizes does not change the total size. -/
theorem nonzeroSizes_sum (storage : List ℕ) :
    (nonzeroSizes storage).sum = storage.sum := by
  induction storage with
  | nil => rfl
  | cons s t ih =>
      rw [nonzeroSizes, List.filter_cons]
      by_cases hs : 0 < s
      · rw [if_pos (by simpa using hs), List.sum_cons, List.sum_cons]
        rw [nonzeroSizes] at ih
        rw [ih]
      · rw [if_neg (by simpa using hs), List.sum_cons]
        rw [nonzeroSizes] at ih
        rw [ih]
        omega

/-- Gibbs' inequality for the natural logarithm: the Shannon entropy of the
size distribution is at most `log` of the number of (non-empty) clusters. -/
theorem neg_entropy_log_le {l : List ℕ} {R : ℝ} (hR : 0 < R)
    (hpos : ∀ s ∈ l, 0 < s)
    (hsum : (l.map (fun s : ℕ => (s : ℝ))).sum = R) (hn : 1 ≤ l.length) :
    -((l.map (fun s : ℕ => ((s : ℝ) / R) * Real.log ((s : ℝ) / R))).sum) ≤
      Real.log l.length := by
  set n : ℝ := (l.length : ℝ) with hn_def
  have hn0 : 0 < n := by
    rw [hn_def]
    exact_mod_cast hn
  have hp_sum : (l.map (fun s : ℕ => (s : ℝ) / R)).sum = 1 := by
    have : (l.map (fun s : ℕ => (s : ℝ) / R)) =
        (l.map (fun s : ℕ => (s : ℝ) * R⁻¹)) := by
      apply List.map_congr_left
      intro s _
      rw [div_eq_mul_inv]
    rw [this, List.sum_map_mul_right, hsum, mul_inv_cancel₀ (ne_of_gt hR)]
  have hkey : ∀ s ∈ l, -(Real.log n) * ((s : ℝ) / R) +
      -(((s : ℝ) / R) * Real.log ((s : ℝ) / R)) ≤ 1 / n + -((s : ℝ) / R) := by
    intro s hs
    set p : ℝ := (s : ℝ) / R with hp_def
    have hp : 0 < p := by
      rw [hp_def]
      apply div_pos _ hR
      exact_mod_cast hpos s hs
    have hlog := @Real.log_le_sub_one_of_pos ((n * p)⁻¹)
      (inv_pos.mpr (mul_pos hn0 hp))
    rw [Real.log_inv, Real.log_mul (ne_of_gt hn0) (ne_of_gt hp)] at hlog
    have hmul := mul_le_mul_of_nonneg_left hlog (le_of_lt hp)
    have hL : p * -(Real.log n + Real.log p) =
        -(Real.log n) * p + -(p * Real.log p) := by ring
    have hRside : p * ((n * p)⁻¹ - 1) = 1 / n + -p := by
      field_simp
      ring
    rw [hL, hRside] at hmul
    exact hmul
  have hsum_le := List.sum_le_sum hkey
  have hlhs : (l.map (fun s : ℕ => -(Real.log n) * ((s : ℝ) / R) +
      -(((s : ℝ) / R) * Real.log ((s : ℝ) / R)))).sum =
      -(Real.log n) +
        -((l.map (fun s : ℕ => ((s : ℝ) / R) * Real.log ((s : ℝ) / R))).sum) := by
    rw [list_sum_map_add_real]
    have ha : (l.map (fun s : ℕ => -(Real.log n) * ((s : ℝ) / R))).sum =
        -(Real.log n) := by
      have hml := List.sum_map_mul_left l (fun s : ℕ => (s : ℝ) / R) (-(Real.log n))
      rw [hp_sum, mul_one] at hml
      exact hml
    have hb : (l.map (fun s : ℕ => -(((s : ℝ) / R) * Real.log ((s : ℝ) / R)))).sum =
        -((l.map (fun s : ℕ => ((s : ℝ) / R) * Real.log ((s : ℝ) / R))).sum) := by
      have heq : (l.map (fun s : ℕ => -(((s : ℝ) / R) * Real.log ((s : ℝ) / R)))) =
          (l.map (fun s : ℕ => (((s : ℝ) / R) * Real.log ((s : ℝ) / R)) * (-1))) := by
        apply List.map_congr_left
        intro s _
        ring
      rw [heq]
      have hmr := List.sum_map_mul_right l
        (fun s : ℕ => ((s : ℝ) / R) * Real.log ((s : ℝ) / R)) (-1)
      rw [hmr]
      rw [mul_neg_one]
    rw [ha, hb]
  have hrhs : (l.map (fun s : ℕ => 1 / n + -((s : ℝ) / R))).sum = 0 := by
    rw [list_sum_map_add_real]
    have h1 : (l.map (fun _ : ℕ => 1 / n)).sum = n * (1 / n) :=
      list_sum_of_const_real (fun x _ => rfl)
    have h2 : (l.map (fun s : ℕ => -((s : ℝ) / R))).sum = -1 := by
      have heq2 : (l.map (fun s : ℕ => -((s : ℝ) / R))) =
          (l.map (fun s : ℕ => ((s : ℝ) / R) * (-1))) := by
        apply List.map_congr_left
        intro s _
        ring
      rw [heq2]
      have hmr2 := List.sum_map_mul_right l (fun s : ℕ => (s : ℝ) / R) (-1)
      rw [hmr2, hp_sum]
      ring
    rw [h1, h2, mul_one_div, div_self (ne_of_gt hn0)]
    ring
  rw [hlhs, hrhs] at hsum_le
  linarith

/-- Claim C5 counterexample: a finished run with exactly one non-empty
cluster (`storage = [5]`, `Row = 5`).  The code performs NO special-casing:
line 660 divides by `log2f(1) = 0`, so the computed balanced entropy is the
indeterminate `-0/0` (no real value), not `0`. -/
theorem balancedEntropy_single_cluster_not_zero :
    groupNoOf [5] = 1 ∧ balancedEntropy [5] 5 = none ∧
    balancedEntropy [5] 5 ≠ some 0 := by
  have h1 : groupNoOf [5] = 1 := by decide
  have h2 : balancedEntropy [5] 5 = none := by
    rw [balancedEntropy, h1]
    simp [fdivNaN, Real.logb_one]
  exact ⟨h1, h2, by rw [h2]; exact fun h => Option.noConfusion h⟩

/-- Claim C5 (amended): with at least two non-empty clusters the balanced
entropy `H = -Σ p·log2 p / log2 (groupNo)` is a well-defined real in `[0, 1]`
and equals `1` when all non-empty clusters have equal size; with exactly one
non-empty cluster the code does not special-case the division — `log2(1) = 0`
and the computed value is the indeterminate `-0/0` (modelled as `none`), not
`0`. -/
theorem balancedEntropy_props (storage : List ℕ) (Row : ℕ) (hRow : 0 < Row)
    (hsum : storage.sum = Row) :
    (groupNoOf storage = 1 → balancedEntropy storage Row = none) ∧
    (2 ≤ groupNoOf storage →
      ∃ H, balancedEntropy storage Row = some H ∧ 0 ≤ H ∧ H ≤ 1 ∧
        ((∀ a ∈ nonzeroSizes storage, ∀ b ∈ nonzeroSizes storage, a = b) →
          H = 1)) := by
  have hlen : groupNoOf storage = (nonzeroSizes storage).length := rfl
  constructor
  · intro h1
    rw [balancedEntropy, h1]
    simp [fdivNaN, Real.logb_one]
  · intro h2
    have hn2 : 2 ≤ (nonzeroSizes storage).length := hlen ▸ h2
    have hR : (0 : ℝ) < (Row : ℝ) := by exact_mod_cast hRow
    have hlpos : ∀ s ∈ nonzeroSizes storage, 0 < s := by
      intro s hs
      exact of_decide_eq_true (List.mem_filter.mp hs).2
    have hlsum : (nonzeroSizes storage).sum = Row := by
      rw [nonzeroSizes_sum, hsum]
    have hcast : ((nonzeroSizes storage).map (fun s : ℕ => (s : ℝ))).sum = (Row : ℝ) := by
      rw [← Nat.cast_list_sum, hlsum]
    have hlogb_pos : 0 < Real.logb 2 (groupNoOf storage) := by
      apply Real.logb_pos (by norm_num)
      have h2' : (2 : ℝ) ≤ (groupNoOf storage : ℝ) := by exact_mod_cast h2
      linarith
    have hlogb_ne : Real.logb 2 (groupNoOf storage) ≠ 0 := ne_of_gt hlogb_pos
    have hSnonpos : entropyAcc storage Row ≤ 0 := by
      rw [entropyAcc]
      apply list_sum_nonpos_real
      intro x hx
      obtain ⟨s, hs, rfl⟩ := List.mem_map.mp hx
      have hp0 : (0 : ℝ) ≤ (s : ℝ) / (Row : ℝ) := by positivity
      have hsle : s ≤ Row := by
        have hnn : ∀ x ∈ nonzeroSizes storage, (0 : ℕ) ≤ x := fun x _ => Nat.zero_le x
        have := List.single_le_sum hnn s hs
        omega
      have hp1 : (s : ℝ) / (Row : ℝ) ≤ 1 := by
        rw [div_le_one hR]
        exact_mod_cast hsle
      exact mul_nonpos_iff.mpr
        (Or.inl ⟨hp0, Real.logb_nonpos (by norm_num) hp0 hp1⟩)
    refine ⟨-(entropyAcc storage Row) / Real.logb 2 (groupNoOf storage), ?_, ?_, ?_, ?_⟩
    · rw [balancedEntropy, fdivNaN, if_neg hlogb_ne]
    · exact div_nonneg (by linarith) (le_of_lt hlogb_pos)
    · rw [div_le_one hlogb_pos]
      have hconv : entropyAcc storage Row =
          (((nonzeroSizes storage).map
            (fun s : ℕ => ((s : ℝ) / (Row : ℝ)) *
              Real.log ((s : ℝ) / (Row : ℝ)))).sum) * (Real.log 2)⁻¹ := by
        rw [entropyAcc, ← List.sum_map_mul_right]
        congr 1
        apply List.map_congr_left
        intro s _
        rw [Real.logb, div_eq_mul_inv]
        ring
      have hlog2pos : (0 : ℝ) < Real.log 2 := Real.log_pos (by norm_num)
      have hcore := neg_entropy_log_le hR hlpos hcast (by omega)
      rw [hconv, Real.logb, div_eq_mul_inv]
      have hmul := mul_le_mul_of_nonneg_right hcore
        (le_of_lt (inv_pos.mpr hlog2pos))
      have hring : -((((nonzeroSizes storage).map
          (fun s : ℕ => ((s : ℝ) / (Row : ℝ)) *
            Real.log ((s : ℝ) / (Row : ℝ)))).sum) * (Real.log 2)⁻¹) =
          (-(((nonzeroSizes storage).map
            (fun s : ℕ => ((s : ℝ) / (Row : ℝ)) *
              Real.log ((s : ℝ) / (Row : ℝ)))).sum)) * (Real.log 2)⁻¹ := by
        ring
      rw [hring]
      have hgn : ((groupNoOf storage : ℕ) : ℝ) = ((nonzeroSizes storage).length : ℝ) := by
        rw [hlen]
      rw [hgn]
      exact hmul
    · intro hallequal
      obtain ⟨c, hc, hcall⟩ : ∃ c, c ∈ nonzeroSizes storage ∧
          ∀ s ∈ nonzeroSizes storage, s = c := by
        have hne : nonzeroSizes storage ≠ [] := by
          intro h0
          rw [h0] at hn2
          simp at hn2
        obtain ⟨c, l', hcons⟩ := List.exists_cons_of_ne_nil hne
        refine ⟨c, ?_, ?_⟩
        · rw [hcons]; exact List.mem_cons_self c l'
        · intro s hs
          exact hallequal s hs c (by rw [hcons]; exact List.mem_cons_self c l')
      have hcpos : 0 < c := hlpos c hc
      have hnR : (0 : ℝ) < ((nonzeroSizes storage).length : ℝ) := by
        have : (0 : ℕ) < (nonzeroSizes storage).length := by omega
        exact_mod_cast this
      have hRnc : (Row : ℝ) = ((nonzeroSizes storage).length : ℝ) * (c : ℝ) := by
        rw [← hcast]
        exact list_sum_of_const_real (fun s hs => by
          show ((s : ℕ) : ℝ) = (c : ℝ)
          exact_mod_cast hcall s hs)
      have hcR : (0 : ℝ) < (c : ℝ) := by exact_mod_cast hcpos
      have hp1 : ∀ s ∈ nonzeroSizes storage, ((s : ℝ) / (Row : ℝ)) *
          Real.logb 2 ((s : ℝ) / (Row : ℝ)) =
          (((nonzeroSizes storage).length : ℝ))⁻¹ *
            Real.logb 2 ((((nonzeroSizes storage).length : ℝ))⁻¹) := by
        intro s hs
        have : (s : ℝ) / (Row : ℝ) = (((nonzeroSizes storage).length : ℝ))⁻¹ := by
          rw [hcall s hs, hRnc]
          field_simp
          ring
        rw [this]
      have hS : entropyAcc storage Row =
          -(Real.logb 2 (((nonzeroSizes storage).length : ℝ))) := by
        rw [entropyAcc, list_sum_of_const_real hp1, Real.logb_inv]
        field_simp
        ring
      rw [hS]
      have hgn : Real.logb 2 ((groupNoOf storage : ℕ) : ℝ) =
          Real.logb 2 (((nonzeroSizes storage).length : ℝ)) := by
        rw [hlen]
      rw [hgn, neg_neg, div_self]
      rw [← hgn]
      exact hlogb_ne

/-- Claim C5 witness: the amended statement at the balanced two-cluster run
`storage = [1, 1]`, `Row = 2`. -/
theorem balancedEntropy_props_witness :
    (groupNoOf [1, 1] = 1 → balancedEntropy [1, 1] 2 = none) ∧
    (2 ≤ groupNoOf [1, 1] →
      ∃ H, balancedEntropy [1, 1] 2 = some H ∧ 0 ≤ H ∧ H ≤ 1 ∧
        ((∀ a ∈ nonzeroSizes [1, 1], ∀ b ∈ nonzeroSizes [1, 1], a = b) →
          H = 1)) :=
  balancedEntropy_props [1, 1] 2 (by decide) (by decide)

end FlowCurve
